import Mathlib

/-!
Shallow embedding of the inline terminal compositor of the `claudio`
repository, and proofs of the specified properties.

Part 1 embeds the streaming text model (`src/ui.rs`, `struct Ui`):
`set_text`, the editing lifecycle, and `lines_needed`.
Part 2 embeds the cell grid and diff engine (`src/inline_term.rs`,
`struct InlineSurface`): `set_cell`, `commit`, `get_line_changes`
and `diff_line_x_only`.

Text is modelled as `List Char` (the code consistently works with
`chars()`, i.e. character indices, not bytes).  Millisecond timestamps,
`f32` in the code, are modelled as `ℚ`; every concrete instant used in a
theorem below is a small integer, exactly representable in `f32`, so the
rational model agrees with the floating-point evaluation on it.
-/

namespace Claudio

/-- UI interaction mode (`enum Mode` in `src/ui.rs`). -/
inductive Mode where
  | listening
  | editing
deriving DecidableEq, Repr

/-- `CHAR_FADE_DELAY_MS` from `src/ui.rs`. -/
def charFadeDelayMs : ℚ := 20

/-- The streaming text model part of `struct Ui` in `src/ui.rs`: the
fields read or written by `set_text`, the editing lifecycle and
`lines_needed`.  (The spinner fields, untouched by those operations, are
omitted.) -/
structure UiModel where
  frozenText : List Char
  text : List Char
  stableLen : Nat
  animationStartMs : ℚ
  mode : Mode
  cursorPos : Nat
  showControls : Bool
deriving DecidableEq, Repr

/-- Length of the longest common character prefix of two texts:
`self.text.chars().zip(text.chars()).take_while(|(a, b)| a == b).count()`
in `Ui::set_text`. -/
def commonPrefixLen : List Char → List Char → Nat
  | a :: as, b :: bs => if a = b then commonPrefixLen as bs + 1 else 0
  | _, _ => 0

/-- `big.starts_with(small)` on character lists (`str::starts_with` as
used in `Ui::set_text` on the unstable portions). -/
def startsWithL : List Char → List Char → Bool
  | _, [] => true
  | [], _ :: _ => false
  | a :: as, b :: bs => if a = b then startsWithL as bs else false

/-- `Ui::set_text(&mut self, text, elapsed_ms)` from `src/ui.rs`. -/
def setText (u : UiModel) (t : List Char) (elapsedMs : ℚ) : UiModel :=
  if u.mode = Mode.editing then u
  else if t = u.text then u
  else
    let cpl := commonPrefixLen u.text t
    let newTextLen := t.length
    let newStableLen := max cpl (min u.stableLen newTextLen)
    let anchor :=
      if newTextLen > newStableLen then
        if u.text = [] ∨ newStableLen ≠ u.stableLen then elapsedMs
        else
          let oldUnstable := u.text.drop u.stableLen
          let newUnstable := t.drop newStableLen
          if startsWithL newUnstable oldUnstable then
            let newChars := newUnstable.length - oldUnstable.length
            if newChars > 0 then
              u.animationStartMs - (newChars : ℚ) * charFadeDelayMs
            else u.animationStartMs
          else elapsedMs
      else u.animationStartMs
    { u with stableLen := newStableLen, text := t, animationStartMs := anchor }

/-- `Ui::full_text`: `frozen_text` followed by `text`. -/
def fullText (u : UiModel) : List Char :=
  u.frozenText ++ u.text

/-- `Ui::start_editing` from `src/ui.rs`. -/
def startEditing (u : UiModel) : UiModel :=
  { u with
    mode := Mode.editing
    frozenText := fullText u
    text := []
    stableLen := 0
    cursorPos := (fullText u).length }

/-- `Ui::finish_editing_with_freeze` from `src/ui.rs`. -/
def finishEditingWithFreeze (u : UiModel) : UiModel :=
  { u with mode := Mode.listening }

/-- `Ui::cancel_editing(&mut self, original)` from `src/ui.rs`. -/
def cancelEditing (u : UiModel) (original : List Char) : UiModel :=
  { u with
    frozenText := original
    text := []
    stableLen := 0
    mode := Mode.listening }

/-- The editing-mode operations of `Ui` that act on the edit buffer
(`insert_char`, `delete_back`, `delete_forward`, cursor motion). -/
inductive EditOp where
  | insertChar (c : Char)
  | deleteBack
  | deleteForward
  | cursorLeft
  | cursorRight
  | cursorHome
  | cursorEnd
deriving DecidableEq, Repr

/-- One editing operation of `Ui` (`src/ui.rs`).  `insert_char` inserts at
the character index `cursor_pos` (the code converts to a byte index and
clamps to the end via `unwrap_or(len)`); `delete_back` / `delete_forward`
drain exactly one character; cursor motion clamps to `[0, length]`. -/
def applyEditOp (u : UiModel) : EditOp → UiModel
  | .insertChar c =>
      { u with
        frozenText := u.frozenText.take u.cursorPos ++ c :: u.frozenText.drop u.cursorPos
        cursorPos := u.cursorPos + 1 }
  | .deleteBack =>
      if u.cursorPos > 0 then
        { u with
          cursorPos := u.cursorPos - 1
          frozenText := u.frozenText.take (u.cursorPos - 1) ++ u.frozenText.drop u.cursorPos }
      else u
  | .deleteForward =>
      if u.cursorPos < u.frozenText.length then
        { u with
          frozenText := u.frozenText.take u.cursorPos ++ u.frozenText.drop (u.cursorPos + 1) }
      else u
  | .cursorLeft => if u.cursorPos > 0 then { u with cursorPos := u.cursorPos - 1 } else u
  | .cursorRight =>
      if u.cursorPos < u.frozenText.length then { u with cursorPos := u.cursorPos + 1 } else u
  | .cursorHome => { u with cursorPos := 0 }
  | .cursorEnd => { u with cursorPos := u.frozenText.length }

/-- A sequence of editing operations applied left to right. -/
def applyEdits (u : UiModel) : List EditOp → UiModel
  | [] => u
  | op :: ops => applyEdits (applyEditOp u op) ops

/-- `Ui::total_char_count`. -/
def totalCharCount (u : UiModel) : Nat :=
  u.frozenText.length + u.text.length

/-- `Ui::lines_needed(&self, width)` from `src/ui.rs` (`width.saturating_sub 2`
is `Nat` subtraction). -/
def linesNeeded (u : UiModel) (width : Nat) : Nat :=
  if width = 0 then 1
  else
    let firstLineWidth := width - 2
    let charCount := totalCharCount u
    let contentLines :=
      if charCount = 0 ∨ firstLineWidth = 0 then 1
      else if charCount ≤ firstLineWidth then 1
      else 1 + (charCount - firstLineWidth + width - 1) / width
    if u.showControls then contentLines + 1 else contentLines

/-- Foreground color (`termwiz::color::ColorAttribute`): the variants the
compositor uses.  The diff engine only needs decidable equality and the
distinguished default. -/
inductive ColorAttribute where
  | default
  | paletteIndex (i : Nat)
  | trueColor (r g b : Nat)
deriving DecidableEq, Repr

/-- `termwiz::cell::CellAttributes` restricted to the foreground color,
the only attribute this program sets. -/
structure CellAttributes where
  foreground : ColorAttribute
deriving DecidableEq, Repr

/-- `CellAttributes::default()`. -/
def CellAttributes.default : CellAttributes :=
  { foreground := ColorAttribute.default }

/-- A grid cell: one glyph plus a style.  The program treats glyphs as
single-column (`c.width().max(1) = 1` for every cell it writes), so a
`Char` suffices.  `Cell::same_contents` is structural equality here. -/
structure Cell where
  ch : Char
  attrs : CellAttributes
deriving DecidableEq, Repr

/-- `Cell::blank()`: a space with default attributes. -/
def Cell.blank : Cell :=
  { ch := ' ', attrs := CellAttributes.default }

/-- `termwiz::surface::change::Change`, restricted to the variants
`diff_line_x_only` emits: an absolute-column cursor move (the row is
relative 0), a full attribute set, and raw text. -/
inductive Change where
  | cursorPosition (x : Nat)
  | allAttributes (a : CellAttributes)
  | text (s : String)
deriving DecidableEq, Repr

/-- `struct InlineSurface` from `src/inline_term.rs`: current and
previously committed grids of `height` lines of `width` cells. -/
structure InlineSurface where
  width : Nat
  height : Nat
  lines : List (List Cell)
  prevLines : List (List Cell)
deriving DecidableEq, Repr

namespace InlineSurface

/-- `InlineSurface::new(width, height)`: both grids filled with blanks. -/
def new (width height : Nat) : InlineSurface :=
  { width := width
    height := height
    lines := List.replicate height (List.replicate width Cell.blank)
    prevLines := List.replicate height (List.replicate width Cell.blank) }

/-- `InlineSurface::set_cell(x, y, cell)`: bounds-checked store into the
current grid; out of range is a no-op. -/
def setCell (s : InlineSurface) (x y : Nat) (cell : Cell) : InlineSurface :=
  if y < s.height ∧ x < s.width then
    { s with lines := s.lines.set y ((s.lines.getD y []).set x cell) }
  else s

/-- `InlineSurface::commit()`: copy the current grid into the previous
grid. -/
def commit (s : InlineSurface) : InlineSurface :=
  { s with prevLines := s.lines }

/-- The `differs` test of `diff_line_x_only`: cells differ when exactly
one is absent or when `same_contents` fails. -/
def cellsDiffer : Option Cell → Option Cell → Bool
  | some c, some p => c ≠ p
  | some _, none => true
  | none, some _ => true
  | none, none => false

/-- The `need_attrs` test of `diff_line_x_only`: an attribute change is
needed when the cell's attributes differ from the last emitted ones, or —
when nothing has been emitted yet — from the default. -/
def needAttrsB (currentAttrs : Option CellAttributes) (c : Cell) : Bool :=
  match currentAttrs with
  | some a => a ≠ c.attrs
  | none => c.attrs ≠ CellAttributes.default

/-- The column scan of `InlineSurface::diff_line_x_only`: iterate `col`
upward (the first argument is the number of columns left to scan),
carrying the expected cursor column and the last emitted attributes.  For
a differing, present cell it pushes a cursor move unless the cursor is
already there, an attribute change when `needAttrsB` says so, then the
cell text; the cursor advances by the cell width, which is 1. -/
def diffGo (cur prev : List Cell) :
    Nat → Nat → Option Nat → Option CellAttributes → List Change
  | 0, _, _, _ => []
  | r + 1, col, cursorCol, currentAttrs =>
    if cellsDiffer (cur[col]?) (prev[col]?) then
      match cur[col]? with
      | some c =>
        (if cursorCol = some col then [] else [Change.cursorPosition col]) ++
          (if needAttrsB currentAttrs c then [Change.allAttributes c.attrs] else []) ++
          (Change.text (String.singleton c.ch) ::
            diffGo cur prev r (col + 1) (some (col + 1))
              (if needAttrsB currentAttrs c then some c.attrs else currentAttrs))
      | none => diffGo cur prev r (col + 1) cursorCol currentAttrs
    else
      diffGo cur prev r (col + 1) cursorCol currentAttrs

/-- `InlineSurface::diff_line_x_only(line, prev_line)`. -/
def diffLineXOnly (width : Nat) (cur prev : List Cell) : List Change :=
  diffGo cur prev width 0 none none

/-- `InlineSurface::get_line_changes(row)`. -/
def getLineChanges (s : InlineSurface) (row : Nat) : List Change :=
  if row < s.height then
    diffLineXOnly s.width (s.lines.getD row []) (s.prevLines.getD row [])
  else []

/-- Number of `Change::Text` operations in an operation list. -/
def countTextOps (l : List Change) : Nat :=
  l.countP fun ch =>
    match ch with
    | Change.text _ => true
    | _ => false

/-- Number of columns in `[col, col + r)` holding a differing, present
cell — the cells for which `diff_line_x_only` enters its emission arm. -/
def diffCount (cur prev : List Cell) : Nat → Nat → Nat
  | 0, _ => 0
  | r + 1, col =>
    (if cellsDiffer (cur[col]?) (prev[col]?) ∧ (cur[col]?).isSome
      then 1 else 0) + diffCount cur prev r (col + 1)

/-- An operation list sets styles minimally: every emitted attribute set
differs from the attributes in force at that point (the argument;
initially the default), and becomes the attributes in force for the
rest of the list. -/
def styleMinimal : CellAttributes → List Change → Prop
  | _, [] => True
  | a, Change.allAttributes b :: rest => b ≠ a ∧ styleMinimal b rest
  | a, Change.cursorPosition _ :: rest => styleMinimal a rest
  | a, Change.text _ :: rest => styleMinimal a rest

/-- Well-formedness of a surface: both grids have `height` lines of
`width` cells. -/
def Wf (s : InlineSurface) : Prop :=
  s.lines.length = s.height ∧ s.prevLines.length = s.height ∧
    (∀ l ∈ s.lines, l.length = s.width) ∧ (∀ l ∈ s.prevLines, l.length = s.width)

end InlineSurface

/-! ### Concrete model states used by the spec's worked examples -/

/-- Model state with settled `"hello"` and volatile `"wor"`: speech text
`"hellowor"`, stable boundary 5. -/
def uC2 : UiModel :=
  { frozenText := [], text := "hellowor".toList, stableLen := 5,
    animationStartMs := 0, mode := Mode.listening, cursorPos := 0, showControls := false }

/-- Model state with fully stable text `"abc"` (stable boundary 3). -/
def uC3 : UiModel :=
  { frozenText := [], text := "abc".toList, stableLen := 3,
    animationStartMs := 0, mode := Mode.listening, cursorPos := 0, showControls := false }

/-- Model state with fully stable text `"abcde"` and animation anchor
100 ms (reachable, e.g. by `set_text "abcde"` at 0 then
`set_text "abcdeX"` at 100 and truncation). -/
def uC4 : UiModel :=
  { frozenText := [], text := "abcde".toList, stableLen := 5,
    animationStartMs := 100, mode := Mode.listening, cursorPos := 0, showControls := false }

/-- The empty model with a nonzero anchor. -/
def uEmpty : UiModel :=
  { frozenText := [], text := [], stableLen := 0,
    animationStartMs := 3, mode := Mode.listening, cursorPos := 0, showControls := false }

/-- Model state with a 25-character transcript. -/
def uC8 : UiModel :=
  { frozenText := [], text := List.replicate 25 'x', stableLen := 0,
    animationStartMs := 0, mode := Mode.listening, cursorPos := 0, showControls := false }

/-- Model state with frozen `""`, settled `"ab"`, volatile `"cd"`:
speech text `"abcd"`, stable boundary 2. -/
def uC9 : UiModel :=
  { frozenText := [], text := "abcd".toList, stableLen := 2,
    animationStartMs := 0, mode := Mode.listening, cursorPos := 0, showControls := false }

/-! ### Helper lemmas about the text model -/

theorem commonPrefixLen_nil_left (t : List Char) : commonPrefixLen [] t = 0 := by
  cases t <;> rfl

theorem commonPrefixLen_le_right : ∀ l t : List Char, commonPrefixLen l t ≤ t.length := by
  intro l
  induction l with
  | nil => intro t; simp [commonPrefixLen_nil_left]
  | cons a as ih =>
    intro t
    cases t with
    | nil => simp [commonPrefixLen]
    | cons b bs =>
      simp only [commonPrefixLen, List.length_cons]
      split
      · have := ih bs
        omega
      · omega

theorem le_commonPrefixLen_of_startsWith :
    ∀ (n : Nat) (l t : List Char), n ≤ l.length → startsWithL t (l.take n) = true →
      n ≤ commonPrefixLen l t := by
  intro n
  induction n with
  | zero => intro l t _ _; omega
  | succ n ih =>
    intro l t hl hsw
    cases l with
    | nil => simp at hl
    | cons a as =>
      cases t with
      | nil => simp [List.take_succ_cons, startsWithL] at hsw
      | cons b bs =>
        rw [List.take_succ_cons] at hsw
        simp only [startsWithL] at hsw
        split at hsw
        · rename_i hba
          have hl' : n ≤ as.length := by
            simp only [List.length_cons] at hl
            omega
          have h2 := ih as bs hl' hsw
          have h3 : commonPrefixLen (a :: as) (b :: bs) = commonPrefixLen as bs + 1 := by
            simp [commonPrefixLen, hba.symm]
          rw [h3]
          omega
        · cases hsw

/-- `set_text` keeps the invariant that the stable boundary never exceeds
the character count of the speech text. -/
theorem setText_stableLen_le (u : UiModel) (t : List Char) (e : ℚ)
    (h : u.stableLen ≤ u.text.length) :
    (setText u t e).stableLen ≤ (setText u t e).text.length := by
  unfold setText
  split
  · exact h
  · split
    · exact h
    · simp only
      have h1 := commonPrefixLen_le_right u.text t
      omega

/-! ### Claim theorems: the streaming text model -/

/-- Claim C10: updating the model with the text it already holds is a
complete no-op, for every state and every timestamp. -/
theorem setText_self_noop (u : UiModel) (e : ℚ) : setText u u.text e = u := by
  unfold setText
  split
  · rfl
  · simp

/-- Claim C1: on every update in Listening mode with new text different
from the current text, the installed stable boundary is
`max(common_prefix_len, min(old_stable_boundary, new_text_char_count))`;
and while the new text still prefix-matches the previously stable
characters, the boundary never decreases. -/
theorem setText_stable_boundary_eq (u : UiModel) (t : List Char) (e : ℚ)
    (hm : u.mode = Mode.listening) (hne : t ≠ u.text) :
    (setText u t e).stableLen =
      max (commonPrefixLen u.text t) (min u.stableLen t.length) ∧
    (u.stableLen ≤ u.text.length → startsWithL t (u.text.take u.stableLen) = true →
      u.stableLen ≤ (setText u t e).stableLen) := by
  have hmode : ¬ u.mode = Mode.editing := by rw [hm]; intro h; cases h
  constructor
  · unfold setText
    rw [if_neg hmode, if_neg hne]
  · intro hlen hsw
    have hc := le_commonPrefixLen_of_startsWith u.stableLen u.text t hlen hsw
    unfold setText
    rw [if_neg hmode, if_neg hne]
    simp only
    omega

/-- Witness for C1 at the `"hellowor" → "helloworld"` update. -/
theorem setText_stable_boundary_eq_witness :
    (setText uC2 "helloworld".toList 1000).stableLen =
      max (commonPrefixLen uC2.text "helloworld".toList)
        (min uC2.stableLen "helloworld".toList.length) ∧
    uC2.stableLen ≤ (setText uC2 "helloworld".toList 1000).stableLen := by
  have h := setText_stable_boundary_eq uC2 "helloworld".toList 1000 (by decide) (by decide)
  exact ⟨h.1, h.2 (by decide) (by decide)⟩

/-- Counterexample to claim C2: from settled `"hello"` / volatile
`"wor"` (anchor 0), the pure suffix-append update to `"helloworld"` at
time 1000 sets the anchor to 1000, not to `anchor − 2 × delay = −40` as
the claim states. -/
theorem setText_append_anchor_cex :
    (setText uC2 "helloworld".toList 1000).animationStartMs = 1000 ∧
    uC2.animationStartMs - 2 * charFadeDelayMs = -40 ∧
    (1000 : ℚ) ≠ -40 := by
  refine ⟨by decide, ?_, by norm_num⟩
  show (0 : ℚ) - 2 * charFadeDelayMs = -40
  norm_num [charFadeDelayMs]

/-- Claim C2 (amended): the append update advances the stable boundary
from 5 to 8 — the whole old text becomes stable, which is why the
already-visible characters do not re-animate — and resets the anchor to
`now`; the non-append revision to `"hellowhorl"` advances the boundary to
6 and likewise resets the anchor to `now`. -/
theorem setText_append_revision_amended :
    ((setText uC2 "helloworld".toList 1000).stableLen = 8 ∧
      (setText uC2 "helloworld".toList 1000).animationStartMs = 1000) ∧
    ((setText uC2 "hellowhorl".toList 1000).stableLen = 6 ∧
      (setText uC2 "hellowhorl".toList 1000).animationStartMs = 1000) := by decide

/-- Counterexample to claim C3: with fully stable text `"abc"`
(boundary 3), the update to `"abX"` has common prefix 2 < 3, yet the
installed boundary is still 3 — not strictly shorter — and the changed
character `X` is treated as stable, not volatile. -/
theorem setText_mismatch_cex :
    commonPrefixLen uC3.text "abX".toList = 2 ∧
    uC3.stableLen = 3 ∧
    (setText uC3 "abX".toList 100).stableLen = 3 ∧
    ¬ (setText uC3 "abX".toList 100).stableLen < uC3.stableLen := by decide

/-- Claim C3 (amended): when the new text stops prefix-matching the
previously stable characters, the installed boundary is
`min(old_stable_boundary, new_text_char_count)` — strictly shorter than
the old boundary only when the new text is shorter than it; the
previously stable characters below that boundary stay stable. -/
theorem setText_mismatch_boundary_amended (u : UiModel) (t : List Char) (e : ℚ)
    (hm : u.mode = Mode.listening) (hne : t ≠ u.text)
    (h : commonPrefixLen u.text t < u.stableLen) :
    (setText u t e).stableLen = min u.stableLen t.length := by
  have hmode : ¬ u.mode = Mode.editing := by rw [hm]; intro h; cases h
  have h1 := commonPrefixLen_le_right u.text t
  unfold setText
  rw [if_neg hmode, if_neg hne]
  simp only
  omega

/-- Witness for the amended C3 at the `"abcde" → "abc"` truncation. -/
theorem setText_mismatch_boundary_witness :
    (setText uC4 "abc".toList 500).stableLen = min uC4.stableLen "abc".toList.length :=
  setText_mismatch_boundary_amended uC4 "abc".toList 500 (by decide) (by decide) (by decide)

/-- Counterexample to claim C4: the update `"abcde"` (boundary 5, anchor
100) → `"abc"` at time 500 moves the boundary backward to 3, yet the
anchor stays 100 instead of being reset to the current time 500. -/
theorem setText_backward_anchor_cex :
    (setText uC4 "abc".toList 500).stableLen = 3 ∧
    uC4.stableLen = 5 ∧
    (setText uC4 "abc".toList 500).animationStartMs = 100 ∧
    (100 : ℚ) ≠ 500 := by
  refine ⟨by decide, by decide, by decide, by norm_num⟩

/-- Claim C4 (amended): the anchor is reset to the current time whenever
volatile text first appears from an empty model; an update that moves
the boundary backward, however, leaves no volatile text (the boundary
becomes the full new length) and does not touch the anchor. -/
theorem setText_anchor_amended (u : UiModel) (t : List Char) (e : ℚ)
    (hm : u.mode = Mode.listening) (hne : t ≠ u.text)
    (hinv : u.stableLen ≤ u.text.length) :
    (u.text = [] → (setText u t e).animationStartMs = e) ∧
    ((setText u t e).stableLen < u.stableLen →
      (setText u t e).animationStartMs = u.animationStartMs ∧
      (setText u t e).stableLen = t.length) := by
  have hmode : ¬ u.mode = Mode.editing := by rw [hm]; intro h; cases h
  have h1 := commonPrefixLen_le_right u.text t
  constructor
  · intro hempty
    have hs0 : u.stableLen = 0 := by rw [hempty] at hinv; simpa using hinv
    have htne : t ≠ [] := by rw [hempty] at hne; exact hne
    have htlen : 0 < t.length := List.length_pos.mpr htne
    unfold setText
    rw [if_neg hmode, if_neg hne]
    simp only [hempty, hs0, commonPrefixLen_nil_left]
    rw [if_pos (by omega)]
    simp
  · intro hlt
    have hstable : (setText u t e).stableLen =
        max (commonPrefixLen u.text t) (min u.stableLen t.length) := by
      unfold setText
      rw [if_neg hmode, if_neg hne]
    rw [hstable] at hlt ⊢
    have htl : t.length < u.stableLen := by omega
    have heq : max (commonPrefixLen u.text t) (min u.stableLen t.length) = t.length := by
      omega
    refine ⟨?_, heq⟩
    unfold setText
    rw [if_neg hmode, if_neg hne]
    simp only
    split
    · omega
    · rfl

/-- Witness for the amended C4: volatile text appearing from the empty
model at time 7 sets the anchor to 7. -/
theorem setText_anchor_amended_witness :
    (setText uEmpty ['a'] 7).animationStartMs = 7 :=
  (setText_anchor_amended uEmpty ['a'] 7 (by decide) (by decide) (by decide)).1 rfl

/-! ### Helper lemmas about the diff engine -/

open InlineSurface

/-- A 2×1 surface with `'A'` written at column 0 (uncommitted). -/
def sA : InlineSurface :=
  setCell (InlineSurface.new 2 1) 0 0 { ch := 'A', attrs := CellAttributes.default }

/-- A 2×1 surface with `'A'` and `'B'` written at columns 0 and 1
(uncommitted), both with the default style. -/
def sAB : InlineSurface :=
  setCell sA 1 0 { ch := 'B', attrs := CellAttributes.default }

theorem cellsDiffer_self (o : Option Cell) : cellsDiffer o o = false := by
  cases o <;> simp [cellsDiffer]

theorem diffGo_step_of_not_differ (cur prev : List Cell) (r col : Nat)
    (cc : Option Nat) (ca : Option CellAttributes)
    (h : cellsDiffer (cur[col]?) (prev[col]?) = false) :
    diffGo cur prev (r + 1) col cc ca = diffGo cur prev r (col + 1) cc ca := by
  simp [diffGo, h]

theorem diffGo_step_none (cur prev : List Cell) (r col : Nat)
    (cc : Option Nat) (ca : Option CellAttributes) (h : cur[col]? = none) :
    diffGo cur prev (r + 1) col cc ca = diffGo cur prev r (col + 1) cc ca := by
  cases hd : cellsDiffer (cur[col]?) (prev[col]?) with
  | false => simp [diffGo, hd]
  | true =>
    rw [h] at hd
    simp [diffGo, h, hd]

theorem diffGo_step_some (cur prev : List Cell) (r col : Nat)
    (cc : Option Nat) (ca : Option CellAttributes) (c : Cell)
    (h : cur[col]? = some c) (hd : cellsDiffer (cur[col]?) (prev[col]?) = true) :
    diffGo cur prev (r + 1) col cc ca =
      (if cc = some col then [] else [Change.cursorPosition col]) ++
        (if needAttrsB ca c then [Change.allAttributes c.attrs] else []) ++
        (Change.text (String.singleton c.ch) ::
          diffGo cur prev r (col + 1) (some (col + 1))
            (if needAttrsB ca c then some c.attrs else ca)) := by
  rw [h] at hd
  simp [diffGo, h, hd]

theorem diffGo_agree (cur prev : List Cell) :
    ∀ (r col : Nat) (cc : Option Nat) (ca : Option CellAttributes),
      (∀ j, col ≤ j → cur[j]? = prev[j]?) →
      diffGo cur prev r col cc ca = [] := by
  intro r
  induction r with
  | zero => intro col cc ca _; rfl
  | succ r ih =>
    intro col cc ca h
    have hstep : cellsDiffer (cur[col]?) (prev[col]?) = false := by
      rw [h col (Nat.le_refl col)]
      exact cellsDiffer_self _
    rw [diffGo_step_of_not_differ cur prev r col cc ca hstep]
    exact ih (col + 1) cc ca fun j hj => h j (by omega)

/-- After `commit()`, the diff of any row of the unmodified grid is
empty. -/
theorem getLineChanges_commit (s : InlineSurface) (row : Nat) :
    getLineChanges (commit s) row = [] := by
  unfold getLineChanges commit diffLineXOnly
  simp only
  split
  · exact diffGo_agree _ _ _ _ _ _ fun j _ => rfl
  · rfl

/-- The scan of a pair of lines that agree everywhere except at column
`x`, where the current line holds `c` and the previous line a different
cell: one cursor move, at most one attribute change, one text op. -/
theorem diffGo_one (cur prev : List Cell) (x : Nat) (c pc : Cell)
    (hx : cur[x]? = some c) (hp : prev[x]? = some pc) (hcp : c ≠ pc)
    (hagree : ∀ j, j ≠ x → cur[j]? = prev[j]?) :
    ∀ (r col : Nat), col ≤ x → x < col + r →
      diffGo cur prev r col none none =
        Change.cursorPosition x ::
          ((if c.attrs = CellAttributes.default then []
            else [Change.allAttributes c.attrs]) ++
            [Change.text (String.singleton c.ch)]) := by
  intro r
  induction r with
  | zero => intro col h1 h2; omega
  | succ r ih =>
    intro col hcx hxr
    by_cases hc : col = x
    · subst hc
      have hd : cellsDiffer (cur[col]?) (prev[col]?) = true := by
        rw [hx, hp]
        simp [cellsDiffer, hcp]
      rw [diffGo_step_some cur prev r col none none c hx hd]
      have htail : diffGo cur prev r (col + 1) (some (col + 1))
          (if needAttrsB none c then some c.attrs else none) = [] :=
        diffGo_agree cur prev r (col + 1) _ _ fun j hj => hagree j (by omega)
      rw [htail]
      by_cases hattr : c.attrs = CellAttributes.default <;>
        simp [hattr, needAttrsB]
    · have hstep : cellsDiffer (cur[col]?) (prev[col]?) = false := by
        rw [hagree col hc]
        exact cellsDiffer_self _
      rw [diffGo_step_of_not_differ cur prev r col none none hstep]
      exact ih (col + 1) (by omega) (by omega)

theorem countTextOps_nil : countTextOps [] = 0 := rfl

theorem countTextOps_cons_text (s : String) (l : List Change) :
    countTextOps (Change.text s :: l) = countTextOps l + 1 := by
  simp [countTextOps, List.countP_cons]

theorem countTextOps_cons_cursor (x : Nat) (l : List Change) :
    countTextOps (Change.cursorPosition x :: l) = countTextOps l := by
  simp [countTextOps, List.countP_cons]

theorem countTextOps_cons_attr (a : CellAttributes) (l : List Change) :
    countTextOps (Change.allAttributes a :: l) = countTextOps l := by
  simp [countTextOps, List.countP_cons]

theorem countTextOps_append (l1 l2 : List Change) :
    countTextOps (l1 ++ l2) = countTextOps l1 + countTextOps l2 := by
  simp [countTextOps, List.countP_append]

/-- Each differing, present cell contributes exactly one text op. -/
theorem countTextOps_diffGo (cur prev : List Cell) :
    ∀ (r col : Nat) (cc : Option Nat) (ca : Option CellAttributes),
      countTextOps (diffGo cur prev r col cc ca) = diffCount cur prev r col := by
  intro r
  induction r with
  | zero => intro col cc ca; rfl
  | succ r ih =>
    intro col cc ca
    cases hd : cellsDiffer (cur[col]?) (prev[col]?) with
    | false =>
      rw [diffGo_step_of_not_differ cur prev r col cc ca hd]
      rw [ih (col + 1) cc ca]
      simp [diffCount, hd]
    | true =>
      cases hcell : cur[col]? with
      | none =>
        rw [diffGo_step_none cur prev r col cc ca hcell]
        rw [ih (col + 1) cc ca]
        simp [diffCount, hd, hcell]
      | some c =>
        rw [diffGo_step_some cur prev r col cc ca c hcell hd]
        rw [countTextOps_append, countTextOps_append, countTextOps_cons_text, ih]
        have h1 : countTextOps (if cc = some col then [] else [Change.cursorPosition col]) = 0 := by
          split <;> simp [countTextOps_nil, countTextOps_cons_cursor]
        have h2 : countTextOps
            (if needAttrsB ca c then [Change.allAttributes c.attrs] else []) = 0 := by
          split <;> simp [countTextOps_nil, countTextOps_cons_attr]
        have hd2 : cellsDiffer (some c) (prev[col]?) = true := by rw [← hcell]; exact hd
        have hc2 : diffCount cur prev (r + 1) col = 1 + diffCount cur prev r (col + 1) := by
          simp [diffCount, hcell, hd2]
        rw [h1, h2, hc2]
        omega

theorem styleMinimal_cons_cursor (a : CellAttributes) (x : Nat) (l : List Change) :
    styleMinimal a (Change.cursorPosition x :: l) = styleMinimal a l := rfl

theorem styleMinimal_cons_text (a : CellAttributes) (s : String) (l : List Change) :
    styleMinimal a (Change.text s :: l) = styleMinimal a l := rfl

theorem styleMinimal_cons_attr (a b : CellAttributes) (l : List Change) :
    styleMinimal a (Change.allAttributes b :: l) = (b ≠ a ∧ styleMinimal b l) := rfl

/-- The scan only emits an attribute set when it differs from the last
emitted attributes (initially the default). -/
theorem styleMinimal_diffGo (cur prev : List Cell) :
    ∀ (r col : Nat) (cc : Option Nat) (ca : Option CellAttributes),
      styleMinimal (ca.getD CellAttributes.default) (diffGo cur prev r col cc ca) := by
  intro r
  induction r with
  | zero => intro col cc ca; trivial
  | succ r ih =>
    intro col cc ca
    cases hd : cellsDiffer (cur[col]?) (prev[col]?) with
    | false =>
      rw [diffGo_step_of_not_differ cur prev r col cc ca hd]
      exact ih (col + 1) cc ca
    | true =>
      cases hcell : cur[col]? with
      | none =>
        rw [diffGo_step_none cur prev r col cc ca hcell]
        exact ih (col + 1) cc ca
      | some c =>
        have hpos : ∀ l : List Change,
            styleMinimal (ca.getD CellAttributes.default)
              ((if cc = some col then [] else [Change.cursorPosition col]) ++ l) =
            styleMinimal (ca.getD CellAttributes.default) l := by
          intro l
          split <;> simp [styleMinimal_cons_cursor]
        rw [diffGo_step_some cur prev r col cc ca c hcell hd, List.append_assoc, hpos]
        cases hna : needAttrsB ca c with
        | false =>
          simp only [hna, Bool.false_eq_true, if_false, List.nil_append,
            styleMinimal_cons_text]
          exact ih (col + 1) (some (col + 1)) ca
        | true =>
          simp only [hna, if_true, List.singleton_append, styleMinimal_cons_attr,
            styleMinimal_cons_text]
          constructor
          · cases ca with
            | none =>
              have h4 : c.attrs ≠ CellAttributes.default := by
                simpa [needAttrsB] using hna
              simpa using h4
            | some a0 =>
              have h4 : a0 ≠ c.attrs := by simpa [needAttrsB] using hna
              simp only [Option.getD_some]
              exact fun hh => h4 hh.symm
          · have h3 := ih (col + 1) (some (col + 1)) (some c.attrs)
            simpa using h3

/-! ### Claim theorems: the diff engine -/

/-- Counterexample to claim C5: on a 2-wide row whose two cells both
differ from the committed (blank) row and share the default style — a
single maximal same-style run — the diff emits one text operation per
cell (two in total), not exactly one for the whole run. -/
theorem diff_run_single_text_cex :
    getLineChanges sAB 0 =
      [Change.cursorPosition 0, Change.text "A", Change.text "B"] ∧
    cellsDiffer ((sAB.lines.getD 0 [])[0]?) ((sAB.prevLines.getD 0 [])[0]?) = true ∧
    cellsDiffer ((sAB.lines.getD 0 [])[1]?) ((sAB.prevLines.getD 0 [])[1]?) = true ∧
    ((sAB.lines.getD 0 []).getD 0 Cell.blank).attrs =
      ((sAB.lines.getD 0 []).getD 1 Cell.blank).attrs ∧
    countTextOps (getLineChanges sAB 0) = 2 := by decide

/-- Claim C5 (amended): each differing cell of a row contributes exactly
one text-emission operation — a maximal same-style run of n differing
cells yields n text emissions, not one — and a style-set operation is
emitted only when the style to emit differs from the last emitted style
(initially the default), not from the cell's previous committed style. -/
theorem diff_text_per_cell_amended (width : Nat) (cur prev : List Cell) :
    countTextOps (diffLineXOnly width cur prev) = diffCount cur prev width 0 ∧
    styleMinimal CellAttributes.default (diffLineXOnly width cur prev) := by
  constructor
  · exact countTextOps_diffGo cur prev width 0 none none
  · have h := styleMinimal_diffGo cur prev width 0 none none
    simpa using h

theorem getElem?_eq_some_getD {α : Type} (l : List α) (i : Nat) (d : α)
    (h : i < l.length) : l[i]? = some (l.getD i d) := by
  rw [List.getD_eq_getElem?_getD, List.getElem?_eq_getElem h]
  rfl

/-- Claim C6: after `commit()` the diff of every row against the
unmodified grid is empty; after one in-bounds `set_cell` writing a cell
that differs from the committed cell at that position, the diff of that
row is exactly one cursor move, at most one attribute set and one text
emission covering the changed run — in particular it contains exactly
one text-emission operation. -/
theorem commit_set_diff (s : InlineSurface) (x y : Nat) (c : Cell)
    (hwf : s.Wf) (hx : x < s.width) (hy : y < s.height)
    (hne : c ≠ (s.lines.getD y []).getD x Cell.blank) :
    (∀ row, getLineChanges (commit s) row = []) ∧
    getLineChanges (setCell (commit s) x y c) y =
      Change.cursorPosition x ::
        ((if c.attrs = CellAttributes.default then []
          else [Change.allAttributes c.attrs]) ++
          [Change.text (String.singleton c.ch)]) ∧
    countTextOps (getLineChanges (setCell (commit s) x y c) y) = 1 := by
  obtain ⟨hlen, hplen, hcells, hpcells⟩ := hwf
  have hyL : y < s.lines.length := by omega
  have hLeq : s.lines.getD y [] = s.lines[y] := by
    rw [List.getD_eq_getElem?_getD, List.getElem?_eq_getElem hyL]
    rfl
  have hLmem : s.lines.getD y [] ∈ s.lines := by
    rw [hLeq]
    exact List.getElem_mem hyL
  have hLw : (s.lines.getD y []).length = s.width := hcells _ hLmem
  have hxL : x < (s.lines.getD y []).length := by omega
  have hsetc : setCell (commit s) x y c =
      { s with prevLines := s.lines,
               lines := s.lines.set y ((s.lines.getD y []).set x c) } := by
    unfold setCell commit
    rw [if_pos ⟨hy, hx⟩]
  have hcur : (s.lines.set y ((s.lines.getD y []).set x c)).getD y [] =
      (s.lines.getD y []).set x c := by
    rw [List.getD_eq_getElem?_getD, List.getElem?_set_self hyL]
    rfl
  have hrow : getLineChanges (setCell (commit s) x y c) y =
      diffGo ((s.lines.getD y []).set x c) (s.lines.getD y []) s.width 0 none none := by
    rw [hsetc]
    unfold getLineChanges diffLineXOnly
    dsimp only
    rw [if_pos hy, hcur]
  have hgetx : (s.lines.getD y [])[x]? =
      some ((s.lines.getD y []).getD x Cell.blank) :=
    getElem?_eq_some_getD (s.lines.getD y []) x Cell.blank hxL
  have hsetx : ((s.lines.getD y []).set x c)[x]? = some c :=
    List.getElem?_set_self hxL
  have hagree : ∀ j, j ≠ x →
      ((s.lines.getD y []).set x c)[j]? = (s.lines.getD y [])[j]? :=
    fun j hj => List.getElem?_set_ne (Ne.symm hj)
  have hmain := diffGo_one ((s.lines.getD y []).set x c) (s.lines.getD y []) x c
    ((s.lines.getD y []).getD x Cell.blank) hsetx hgetx hne hagree s.width 0
    (Nat.zero_le x) (by omega)
  refine ⟨fun row => getLineChanges_commit s row, ?_, ?_⟩
  · rw [hrow]
    exact hmain
  · rw [hrow, hmain]
    by_cases hattr : c.attrs = CellAttributes.default <;>
      simp [hattr, countTextOps_cons_cursor, countTextOps_cons_text,
        countTextOps_cons_attr, countTextOps_append, countTextOps_nil]

/-- Witness for C6 on a fresh 2×1 surface: write `'A'` over the
committed blank at (0,0); the diff is one cursor move plus one text
emission. -/
theorem commit_set_diff_witness :
    (InlineSurface.new 2 1).Wf ∧
    getLineChanges (setCell (commit (InlineSurface.new 2 1)) 0 0
        { ch := 'A', attrs := CellAttributes.default }) 0 =
      [Change.cursorPosition 0, Change.text "A"] ∧
    countTextOps (getLineChanges (setCell (commit (InlineSurface.new 2 1)) 0 0
        { ch := 'A', attrs := CellAttributes.default }) 0) = 1 := by
  have h := commit_set_diff (InlineSurface.new 2 1) 0 0
    { ch := 'A', attrs := CellAttributes.default }
    (by constructor <;> decide) (by decide) (by decide) (by decide)
  refine ⟨by constructor <;> decide, ?_, h.2.2⟩
  rw [h.2.1]
  decide

/-- Counterexample to claim C7: the diff is a pure query, so a second
call on the same unmutated grid returns the same list as the first —
here a nonempty one — not the empty list. -/
theorem diff_twice_nonempty_cex :
    getLineChanges sA 0 = [Change.cursorPosition 0, Change.text "A"] ∧
    getLineChanges sA 0 ≠ [] := by decide

/-- Claim C7 (amended): the diff does not mutate the grids, so calling
it twice without mutation yields the same list both times; the second
call yields an empty list once `commit()` has copied the current grid
into the previous one, as the render loop does after applying a diff. -/
theorem diff_after_commit_idem (s : InlineSurface) (row : Nat) :
    getLineChanges (commit s) row = [] :=
  getLineChanges_commit s row

/-! ### Claim theorems: layout and editing -/

/-- Claim C8: with the controls line hidden and a width of at least 3,
`lines_needed` reserves `width − 2` columns on the first row and the
full width on subsequent rows: one row when the text fits after the
2-column status prefix, and `1 + ceil((count − (width−2)) / width)`
rows otherwise. -/
theorem linesNeeded_wrap (u : UiModel) (w : Nat)
    (hc : u.showControls = false) (hw : 3 ≤ w) :
    linesNeeded u w =
      if totalCharCount u ≤ w - 2 then 1
      else 1 + (totalCharCount u - (w - 2) + w - 1) / w := by
  have hw0 : ¬ w = 0 := by omega
  unfold linesNeeded
  rw [if_neg hw0]
  simp only [hc, Bool.false_eq_true, if_false]
  split_ifs <;> first | rfl | omega

/-- Witness for C8: a 25-character transcript at width 10 needs
`1 + ceil((25 − 8)/10) = 3` rows. -/
theorem linesNeeded_wrap_witness :
    uC8.showControls = false ∧ 3 ≤ 10 ∧ linesNeeded uC8 10 = 3 := by
  refine ⟨rfl, by omega, ?_⟩
  rw [linesNeeded_wrap uC8 10 rfl (by omega)]
  decide

/-- Every editing-mode operation touches only the edit buffer
(`frozen_text`) and the cursor: the speech text, the stable boundary and
the mode are unchanged. -/
theorem applyEditOp_preserves (u : UiModel) (op : EditOp) :
    (applyEditOp u op).text = u.text ∧ (applyEditOp u op).stableLen = u.stableLen ∧
      (applyEditOp u op).mode = u.mode := by
  cases op <;> simp [applyEditOp] <;> split_ifs <;> simp

theorem applyEdits_preserves (ops : List EditOp) : ∀ u : UiModel,
    (applyEdits u ops).text = u.text ∧ (applyEdits u ops).stableLen = u.stableLen ∧
      (applyEdits u ops).mode = u.mode := by
  induction ops with
  | nil => intro u; exact ⟨rfl, rfl, rfl⟩
  | cons op ops ih =>
    intro u
    have h1 := applyEditOp_preserves u op
    have h2 := ih (applyEditOp u op)
    unfold applyEdits
    exact ⟨h2.1.trans h1.1, h2.2.1.trans h1.2.1, h2.2.2.trans h1.2.2⟩

/-- Claim C9: entering edit mode from frozen `""`, settled `"ab"`,
volatile `"cd"` yields edit buffer `"abcd"` with the cursor at character
index 4; cancelling with the pre-edit snapshot restores the frozen text
to the snapshot exactly and clears settled/volatile; committing after
any sequence of edits leaves settled/volatile cleared and makes the
edited buffer the (unchanged) frozen text. -/
theorem edit_lifecycle :
    ((startEditing uC9).frozenText = "abcd".toList ∧
      (startEditing uC9).cursorPos = 4 ∧
      (startEditing uC9).mode = Mode.editing) ∧
    (∀ (u : UiModel) (original : List Char),
      (cancelEditing u original).frozenText = original ∧
      (cancelEditing u original).text = [] ∧
      (cancelEditing u original).stableLen = 0 ∧
      (cancelEditing u original).mode = Mode.listening) ∧
    (∀ ops : List EditOp,
      (finishEditingWithFreeze (applyEdits (startEditing uC9) ops)).mode =
        Mode.listening ∧
      (finishEditingWithFreeze (applyEdits (startEditing uC9) ops)).text = [] ∧
      (finishEditingWithFreeze (applyEdits (startEditing uC9) ops)).stableLen = 0 ∧
      (finishEditingWithFreeze (applyEdits (startEditing uC9) ops)).frozenText =
        (applyEdits (startEditing uC9) ops).frozenText) := by
  refine ⟨by decide, fun u original => ⟨rfl, rfl, rfl, rfl⟩, fun ops => ?_⟩
  have h := applyEdits_preserves ops (startEditing uC9)
  have htext : (applyEdits (startEditing uC9) ops).text = [] := by
    rw [h.1]; rfl
  have hstable : (applyEdits (startEditing uC9) ops).stableLen = 0 := by
    rw [h.2.1]; rfl
  exact ⟨rfl, htext, hstable, rfl⟩

end Claudio
